import Mathlib

/-!
Verification of the signal-to-visual pipeline of the cli-audio-visualizer
repository.  Each definition is a shallow embedding of a function from the
source tree (floating-point arithmetic is embedded as exact arithmetic over
ℚ, or over ℝ where the code uses transcendental functions such as the FFT,
Hann window, logarithmic spacing and fractional powers).

Embedded sources:
* `src/audio_visualizer/dsp/bars.py`              (`compute_frequency_bars`, `_log_edges`)
* `src/audio_visualizer/dsp/adaptive_eq.py`       (`apply_adaptive_eq`)
* `src/audio_visualizer/smooth_visualizer.py`     (`SmoothVisualizer._apply_smoothing`)
* `src/audio_visualizer/visualizers/spectrum.py`  (peak hold/decay loop of `draw_spectrum`)
* `src/audio_visualizer/visualizers/radial_burst.py` (particle update & spawn gating)
* `src/audio_visualizer/parec_audio.py`, `src/audio_visualizer/improved_audio.py`
  (bounded audio queue with drop-oldest overflow, silence gating)
-/

/-- `np.max` of a list (numpy raises on an empty array; the default `0` is
only ever exposed for inputs the code cannot produce). -/
def npMax {α : Type*} [LinearOrder α] [Zero α] : List α → α
  | [] => 0
  | a :: l => l.foldl max a

/- ===================================================================
   dsp/bars.py — SpectralBinner
   =================================================================== -/

/-- `np.hanning(M)`: `0.5 - 0.5*cos(2*pi*n/(M-1))`, with `np.hanning(1) = [1]`. -/
noncomputable def hann (M j : ℕ) : ℝ :=
  if M = 1 then 1 else 1/2 - 1/2 * Real.cos (2 * Real.pi * j / ((M : ℝ) - 1))

/-- Squared magnitude of the `k`-th line of `np.fft.rfft` of the length-`n`
signal `x`:  `|Σ_j x_j · exp(-2πi·j·k/n)|²`. -/
noncomputable def rfftPower (x : ℕ → ℝ) (n k : ℕ) : ℝ :=
  Complex.normSq (∑ j ∈ Finset.range n,
    (x j : ℂ) * Complex.exp (-(2 * Real.pi * Complex.I * j * k) / n))

/-- Base-10 logarithm, `np.log10`. -/
noncomputable def log10 (x : ℝ) : ℝ := Real.log x / Real.log 10

/-- `np.logspace(log10 fl, log10 fh, n)`: the `i`-th logarithmically spaced
band center (for `n = 1` numpy returns the single start point `fl`, which the
formula yields at `i = 0` since the `i * _` term vanishes). -/
noncomputable def centersFun (n : ℕ) (fl fh : ℝ) (i : ℕ) : ℝ :=
  (10 : ℝ) ^ (log10 fl + (i : ℝ) * ((log10 fh - log10 fl) / ((n : ℝ) - 1)))

/-- `_log_edges` of `dsp/bars.py`: band edges as geometric midpoints of
adjacent centers, first and last edge extrapolated (each guarded by the
`> 0` test on the neighbouring edge as it stands at that point of the numpy
program, where the array was initialised to zeros), finally clipped to
`[fl, fh]`.  `logEdgesFun n fl fh i` is entry `i` (0 ≤ i ≤ n) of the
returned `edges` array. -/
noncomputable def logEdgesFun (n : ℕ) (fl fh : ℝ) (i : ℕ) : ℝ :=
  let c := centersFun n fl fh
  let mid : ℕ → ℝ := fun j =>
    if 1 ≤ j ∧ j ≤ n - 1 then Real.sqrt (c (j - 1) * c j) else 0
  let e0 : ℝ := if 0 < mid 1 then c 0 * (c 0 / mid 1) else fl
  let withE0 : ℕ → ℝ := fun j => if j = 0 then e0 else mid j
  let eLast : ℝ :=
    if 0 < withE0 (n - 1) then c (n - 1) * (c (n - 1) / withE0 (n - 1)) else fh
  max fl (min fh (if i = n then eLast else withE0 i))

/-- One iteration of the band loop of `compute_frequency_bars`: value of the
band with edges `[lo, hi)` and center `c`, over the `K` spectral lines with
frequencies `freqs` and powers `power`.  If any line falls inside the edges
the value is the RMS of the masked powers; otherwise the power is linearly
interpolated at `c` between the two lines around insertion index
`np.searchsorted(freqs, c)`. -/
noncomputable def bandValue (power freqs : ℕ → ℝ) (K : ℕ) (lo hi c : ℝ) : ℝ :=
  let mask := (Finset.range K).filter fun k => lo ≤ freqs k ∧ freqs k < hi
  if mask.Nonempty then
    Real.sqrt ((∑ k ∈ mask, power k) / (mask.card : ℝ))
  else
    let idx := ((Finset.range K).filter fun k => freqs k < c).card
    if idx = 0 then Real.sqrt (power 0)
    else if K ≤ idx then Real.sqrt (power (K - 1))
    else
      let w := (c - freqs (idx - 1)) / max 1e-9 (freqs idx - freqs (idx - 1))
      Real.sqrt ((1 - w) * power (idx - 1) + w * power idx)

/-- The raw per-band values of `compute_frequency_bars` (everything up to and
including the band loop): zero-pad/truncate to `W` samples, Hann window,
power spectrum, log-spaced banding. -/
noncomputable def barValsRaw (audio : List ℝ) (N W : ℕ) (sample_rate : ℤ) : List ℝ :=
  let padded := audio.take W ++ List.replicate (W - audio.length) (0 : ℝ)
  let windowed : ℕ → ℝ := fun j => padded.getD j 0 * hann W j
  let power : ℕ → ℝ := fun k => rfftPower windowed W k
  let freqs : ℕ → ℝ := fun k => (k : ℝ) * (sample_rate : ℝ) / (W : ℝ)
  let nyquist : ℝ := (sample_rate : ℝ) / 2
  let f_low : ℝ := 20
  let fh0 : ℝ := min 20000 (nyquist * 0.999)
  let f_high : ℝ := if fh0 ≤ f_low then nyquist * 0.999 else fh0
  (List.range N).map fun i =>
    bandValue power freqs (W / 2 + 1)
      (logEdgesFun N f_low f_high i) (logEdgesFun N f_low f_high (i + 1))
      (centersFun N f_low f_high i)

/-- `np.percentile(l, 20)` with numpy's default linear interpolation between
order statistics. -/
noncomputable def percentile20 (l : List ℝ) : ℝ :=
  let s := l.insertionSort (· ≤ ·)
  let pos : ℝ := 20 / 100 * ((s.length : ℝ) - 1)
  let i : ℕ := ⌊pos⌋₊
  s.getD i 0 + (pos - (i : ℝ)) * (s.getD (min (i + 1) (s.length - 1)) 0 - s.getD i 0)

/-- Entry `i` of `np.linspace(0, 1, n)` (`[0.]` when `n = 1`). -/
noncomputable def linspace01 (n i : ℕ) : ℝ :=
  if n = 1 then 0 else (i : ℝ) / ((n : ℝ) - 1)

/-- Spectral tilt gain of `compute_frequency_bars`:
`1.0 + 0.78 * (idx ** 1.15)`. -/
noncomputable def tiltGain (n i : ℕ) : ℝ :=
  1 + 0.78 * linspace01 n i ^ (1.15 : ℝ)

/-- Noise-floor removal of `compute_frequency_bars`:
`np.clip(bar_vals - floor * 0.15, 0, None)` with `floor` the 20th
percentile. -/
noncomputable def floorClipped (bv : List ℝ) : List ℝ :=
  bv.map fun v => max 0 (v - percentile20 bv * 0.15)

/-- Optional spectral-tilt compensation of `compute_frequency_bars`
(`bar_vals *= tilt_gain`, skipped when `flatten` is set), applied to the
floor-clipped values. -/
noncomputable def tilted (flatten : Bool) (bv : List ℝ) : List ℝ :=
  if flatten then floorClipped bv
  else (List.range (floorClipped bv).length).map fun i =>
    (floorClipped bv).getD i 0 * tiltGain (floorClipped bv).length i

/-- Conditional post-processing of the band loop output (noise-floor
subtraction, optional tilt compensation, baseline), applied only when some
band value is positive — `if np.any(bar_vals > 0):` in the source.  This is
the value of `bar_vals` just before the final normalisation by the maximum. -/
noncomputable def preNormVals (flatten : Bool) (bv : List ℝ) : List ℝ :=
  if ∃ v ∈ bv, 0 < v then
    let v2 := tilted flatten bv
    let baseline := v2.sum / (v2.length : ℝ) * 0.01
    if 0 < baseline then v2.map fun v => v + baseline else v2
  else bv

/-- `np.power(v, 0.7, where=v>0, out=v)`: the 0.7 gamma, leaving
non-positive entries untouched. -/
noncomputable def gammaLift (v : ℝ) : ℝ := if 0 < v then v ^ (0.7 : ℝ) else v

/-- Tail of `compute_frequency_bars`: normalise by the maximum (skipped when
the maximum is not positive) and apply the 0.7 gamma. -/
noncomputable def postProcess (flatten : Bool) (bv : List ℝ) : List ℝ :=
  let v3 := preNormVals flatten bv
  let m := npMax v3
  (if 0 < m then v3.map fun v => v / m else v3).map gammaLift

/-- `compute_frequency_bars` of `dsp/bars.py`. -/
noncomputable def compute_frequency_bars (audio : List ℝ) (num_bars : ℤ)
    (fft_size : ℤ := 4096) (sample_rate : ℤ := 44100) (flatten : Bool := false) :
    List ℝ :=
  if num_bars ≤ 0 then []
  else
    postProcess flatten
      (barValsRaw audio num_bars.toNat
        (if fft_size ≤ 0 then 4096 else fft_size).toNat sample_rate)

/- ===================================================================
   dsp/adaptive_eq.py — AdaptiveNormalizer
   =================================================================== -/

/-- The subset of the shared visualizer state dictionary read and written by
`apply_adaptive_eq` (a missing `adaptive_eq_mean` key is `none`). -/
structure EqState where
  adaptive_eq : Bool
  adaptive_eq_strength : ℚ
  adaptive_eq_mean : Option (List ℚ)
deriving Repr, DecidableEq

/-- The running-mean update of `apply_adaptive_eq`: reseed to the raw values
when the stored mean is absent (or, in the source, not an ndarray) or
shape-mismatched, otherwise the slow EMA `0.995·mean + 0.005·raw`. -/
def eqRunMean (values : List ℚ) (st : EqState) : List ℚ :=
  match st.adaptive_eq_mean with
  | none => values
  | some rm =>
    if rm.length = values.length then
      List.zipWith (fun m v => 0.995 * m + 0.005 * v) rm values
    else values

/-- `apply_adaptive_eq` of `dsp/adaptive_eq.py`: running-mean adaptive EQ.
Returns the (possibly) adjusted values together with the updated state. -/
def apply_adaptive_eq (values : List ℚ) (st : EqState) : List ℚ × EqState :=
  if !st.adaptive_eq ∨ values.length = 0 then (values, st)
  else
    let strength := st.adaptive_eq_strength
    let run_mean := eqRunMean values st
    let adj := List.zipWith (fun v m => v / (m + 1e-6)) values run_mean
    let m := npMax adj
    let adj2 := if 0 < m then adj.map fun x => x / m else adj
    let blended :=
      List.zipWith (fun v a => (1 - strength) * v + strength * a) values adj2
    (blended, { st with adaptive_eq_mean := some run_mean })

/- ===================================================================
   smooth_visualizer.py — TemporalSmoother (_apply_smoothing)
   =================================================================== -/

/-- The fields of `SmoothVisualizer` read and written by `_apply_smoothing`
(`smoothing_factor` is initialised to `0.6` in `__init__`). -/
structure SmoothState where
  previous_values : Option (List ℚ)
  previous_waveform : Option (List ℚ)
  smoothing_factor : ℚ
deriving Repr, DecidableEq

/-- `SmoothVisualizer._apply_smoothing`: exponential smoothing
`a·prev + (1-a)·new` against the per-channel previous value, reseeding the
previous value (and returning the input unsmoothed) when it is absent or of
a different length. -/
def apply_smoothing (st : SmoothState) (values : List ℚ) (use_waveform : Bool) :
    List ℚ × SmoothState :=
  if use_waveform then
    match st.previous_waveform with
    | none => (values, { st with previous_waveform := some values })
    | some prev =>
      if prev.length = values.length then
        let smoothed := List.zipWith
          (fun p v => st.smoothing_factor * p + (1 - st.smoothing_factor) * v)
          prev values
        (smoothed, { st with previous_waveform := some smoothed })
      else (values, { st with previous_waveform := some values })
  else
    match st.previous_values with
    | none => (values, { st with previous_values := some values })
    | some prev =>
      if prev.length = values.length then
        let smoothed := List.zipWith
          (fun p v => st.smoothing_factor * p + (1 - st.smoothing_factor) * v)
          prev values
        (smoothed, { st with previous_values := some smoothed })
      else (values, { st with previous_values := some values })

/-- `k` successive calls of `_apply_smoothing` on the (constant) bars input
`values`, threading the state. -/
def iterateSmoothing (st : SmoothState) (values : List ℚ) : ℕ → SmoothState
  | 0 => st
  | k + 1 => (apply_smoothing (iterateSmoothing st values k) values false).2

/- ===================================================================
   visualizers/spectrum.py — PeakTracker
   =================================================================== -/

/-- One bin of the peak update loop of `draw_spectrum`: snap up and reset the
decay accumulator when the new value exceeds the peak, otherwise grow the
accumulator by `0.008` and decay the peak by it, floored at 0.  Returns the
new `(peak, decay)` pair. -/
def peakStep (new peak decay : ℚ) : ℚ × ℚ :=
  if peak < new then (new, 0)
  else (max 0 (peak - (decay + 0.008)), decay + 0.008)

/-- The whole peak update loop of `draw_spectrum` over the three aligned
arrays (`bar_heights`, `peak_values`, `peak_decay`). -/
def updatePeaks : List ℚ → List ℚ → List ℚ → List ℚ × List ℚ
  | b :: bs, p :: ps, d :: ds =>
    let hd := peakStep b p d
    let tl := updatePeaks bs ps ds
    (hd.1 :: tl.1, hd.2 :: tl.2)
  | _, _, _ => ([], [])

/- ===================================================================
   visualizers/radial_burst.py — AnimationEngine particles
   =================================================================== -/

/-- A particle of `draw_radial_burst`, stored in the source as the list
`[x, y, vx, vy, age, max_life, burst_factor]`. -/
structure Particle where
  x : ℚ
  y : ℚ
  vx : ℚ
  vy : ℚ
  age : ℕ
  maxLife : ℕ
  burst : ℚ
deriving Repr, DecidableEq

/-- Per-frame particle update of `draw_radial_burst`: damp the velocity by
`0.995`, integrate the position with the damped velocity, increment the age. -/
def updateParticle (p : Particle) : Particle :=
  { p with
    vx := p.vx * 0.995
    vy := p.vy * 0.995
    x := p.x + p.vx * 0.995
    y := p.y + p.vy * 0.995
    age := p.age + 1 }

/-- Retention test of `draw_radial_burst`: a particle survives the frame when
its age is below its max life and its position is inside the grid extended by
a margin of 2 cells on every side. -/
def keepParticle (w h : ℚ) (p : Particle) : Bool :=
  decide (p.age < p.maxLife) && decide (-2 ≤ p.x) && decide (p.x < w + 2)
    && decide (-2 ≤ p.y) && decide (p.y < h + 2)

/-- One frame of the particle list maintenance of `draw_radial_burst`: the
spawned particles are appended to the existing list, every particle is
updated, expired or escaped particles are dropped, and the list is truncated
to its newest 450 entries (`new_particles[-450:]`). -/
def stepParticles (existing spawned : List Particle) (w h : ℚ) : List Particle :=
  let kept := ((existing ++ spawned).map updateParticle).filter (keepParticle w h)
  kept.drop (kept.length - 450)

/-- Slow ("macro") energy envelope update of `draw_radial_burst`:
`0.94 * old + 0.06 * energy` (field `macro_energy` in the state dict). -/
noncomputable def slowEnvNext (slowEnv energy : ℝ) : ℝ :=
  0.94 * slowEnv + 0.06 * energy

/-- Fast energy envelope update of `draw_radial_burst`:
`0.60 * old + 0.40 * energy` (field `fast_energy` in the state dict). -/
noncomputable def fastEnvNext (fastEnv energy : ℝ) : ℝ :=
  0.60 * fastEnv + 0.40 * energy

/-- Normalised transient of `draw_radial_burst`:
`min(1.5, max(0, fast - macro*1.03) / (base_level*0.6 + 1e-6))` with
`base_level = macro + 1e-6`, after both envelopes were updated. -/
noncomputable def transientNormVal (slowEnv fastEnv energy : ℝ) : ℝ :=
  min 1.5 (max 0 (fastEnvNext fastEnv energy - slowEnvNext slowEnv energy * 1.03)
    / ((slowEnvNext slowEnv energy + 1e-6) * 0.6 + 1e-6))

/-- Particle spawn count of one `draw_radial_burst` frame, as a function of
the previous envelopes, the current broadband energy and the frame counter:
quiet gating, base + burst spawn, sharp-transient bonus, cap at 55, and the
keep-alive of one particle every 22 quiet frames. -/
noncomputable def spawnCount (slowEnv fastEnv energy : ℝ) (frame_counter : ℕ) : ℕ :=
  let tn := transientNormVal slowEnv fastEnv energy
  let quiet := slowEnvNext slowEnv energy < 0.02 ∧ tn < 0.15
  let baseSpawn : ℕ :=
    if quiet then 0 else ⌊slowEnvNext slowEnv energy ^ (0.85 : ℝ) * 14⌋₊
  let burstSpawn : ℕ := if quiet then 0 else ⌊tn ^ (0.9 : ℝ) * 30⌋₊
  let c1 := baseSpawn + burstSpawn
  let c2 := if 0.9 < tn then c1 + 6 else c1
  let c3 := min c2 55
  if c3 = 0 ∧ frame_counter % 22 = 0 then 1 else c3

/- ===================================================================
   parec_audio.py / improved_audio.py — bounded audio queue
   =================================================================== -/

/-- An audio chunk: a mono sequence of samples. -/
abbrev AudioChunk := List ℚ

/-- Capacity of the audio queue: `queue.Queue(maxsize=5)` in both
`parec_audio.py` and `improved_audio.py`. -/
def queueCapacity : ℕ := 5

/-- The producer-side enqueue of both capture loops:
`put_nowait`, and on `queue.Full` a `get_nowait` (dropping the oldest chunk)
followed by `put_nowait` of the new chunk; the unreachable `queue.Empty`
branch of the recovery drops the new chunk (`pass`). -/
def enqueueDropOldest (q : List AudioChunk) (x : AudioChunk) : List AudioChunk :=
  if q.length < queueCapacity then q ++ [x]
  else
    match q with
    | [] => []
    | _ :: t => t ++ [x]

/-- `get_audio_data` / the consumer-side non-blocking dequeue:
`get_nowait()` returning the oldest chunk, or `None` on `queue.Empty`. -/
def get_audio_data (q : List AudioChunk) : Option AudioChunk × List AudioChunk :=
  match q with
  | [] => (none, [])
  | x :: t => (some x, t)

/-- `np.mean` of one multi-channel frame (row of `indata`), used by the
mono downmix `np.mean(indata, axis=1)`. -/
def meanRow (r : List ℚ) : ℚ := r.sum / (r.length : ℚ)

/-- `np.max(np.abs(l))` (with the empty default 0 never exposed: the
callback always receives at least one frame). -/
def maxAbs (l : List ℚ) : ℚ := npMax (l.map fun v => |v|)

/-- `ImprovedAudioCapture._audio_callback`: downmix the frames-by-channels
input to mono, and enqueue it only when its maximum absolute sample exceeds
`1e-6`; otherwise leave the queue untouched.  Returns the new queue. -/
def audio_callback (indata : List (List ℚ)) (q : List AudioChunk) :
    List AudioChunk :=
  let audio_data := indata.map meanRow
  if 1e-6 < maxAbs audio_data then enqueueDropOldest q audio_data else q

/- ===================================================================
   Generic helper lemmas
   =================================================================== -/

theorem le_foldl_max {α : Type*} [LinearOrder α] (a : α) (l : List α) :
    a ≤ l.foldl max a := by
  induction l generalizing a with
  | nil => exact le_refl a
  | cons b t ih => exact le_trans (le_max_left a b) (ih (max a b))

theorem mem_le_foldl_max {α : Type*} [LinearOrder α] {v : α} {l : List α}
    (a : α) (hv : v ∈ l) : v ≤ l.foldl max a := by
  induction l generalizing a with
  | nil => cases hv
  | cons b t ih =>
    rcases List.mem_cons.mp hv with h | h
    · subst h
      exact le_trans (le_max_right a v) (le_foldl_max _ t)
    · exact ih _ h

theorem foldl_max_le {α : Type*} [LinearOrder α] {l : List α} {c : α} {a : α}
    (ha : a ≤ c) (h : ∀ b ∈ l, b ≤ c) : l.foldl max a ≤ c := by
  induction l generalizing a with
  | nil => exact ha
  | cons b t ih =>
    exact ih (max_le ha (h b (List.mem_cons_self b t)))
      (fun x hx => h x (List.mem_cons_of_mem _ hx))

theorem foldl_max_mem {α : Type*} [LinearOrder α] (a : α) (l : List α) :
    l.foldl max a ∈ a :: l := by
  induction l generalizing a with
  | nil => simp
  | cons b t ih =>
    rcases List.mem_cons.mp (ih (max a b)) with h | h
    · rw [List.foldl_cons, h]
      rcases max_choice a b with hm | hm <;> rw [hm]
      · exact List.mem_cons_self _ _
      · exact List.mem_cons_of_mem _ (List.mem_cons_self _ _)
    · exact List.mem_cons_of_mem _ (List.mem_cons_of_mem _ h)

theorem le_npMax {α : Type*} [LinearOrder α] [Zero α] {v : α} {l : List α}
    (hv : v ∈ l) : v ≤ npMax l := by
  cases l with
  | nil => cases hv
  | cons a t =>
    rcases List.mem_cons.mp hv with h | h
    · subst h
      exact le_foldl_max _ _
    · exact mem_le_foldl_max _ h

theorem npMax_le {α : Type*} [LinearOrder α] [Zero α] {l : List α} {c : α}
    (hne : l ≠ []) (h : ∀ v ∈ l, v ≤ c) : npMax l ≤ c := by
  cases l with
  | nil => exact absurd rfl hne
  | cons a t =>
    exact foldl_max_le (h a (List.mem_cons_self a t))
      (fun x hx => h x (List.mem_cons_of_mem _ hx))

theorem npMax_mem {α : Type*} [LinearOrder α] [Zero α] {l : List α}
    (hne : l ≠ []) : npMax l ∈ l := by
  cases l with
  | nil => exact absurd rfl hne
  | cons a t => exact foldl_max_mem a t

theorem getD_nonneg {α : Type*} [Zero α] [Preorder α] {l : List α}
    (h : ∀ v ∈ l, 0 ≤ v) (i : ℕ) : 0 ≤ l.getD i 0 := by
  by_cases hi : i < l.length
  · rw [List.getD_eq_getElem _ _ hi]
    exact h _ (List.getElem_mem hi)
  · rw [List.getD_eq_default _ _ (le_of_not_lt hi)]

theorem getD_eq_zero {α : Type*} [Zero α] {l : List α}
    (h : ∀ v ∈ l, v = 0) (i : ℕ) : l.getD i 0 = 0 := by
  by_cases hi : i < l.length
  · rw [List.getD_eq_getElem _ _ hi]
    exact h _ (List.getElem_mem hi)
  · rw [List.getD_eq_default _ _ (le_of_not_lt hi)]

theorem zipWith_left_eq {α β : Type*} (f : α → β → α) (hf : ∀ v a, f v a = v) :
    ∀ (l : List α) (r : List β), r.length = l.length → List.zipWith f l r = l := by
  intro l
  induction l with
  | nil => intro r _; simp
  | cons a t ih =>
    intro r h
    cases r with
    | nil => simp at h
    | cons b s =>
      simp only [List.zipWith_cons_cons, hf]
      rw [ih s (by simpa using h)]

/- ===================================================================
   C3 — adaptive EQ with strength 0 is a pass-through
   =================================================================== -/

theorem eqRunMean_length (values : List ℚ) (st : EqState) :
    (eqRunMean values st).length = values.length := by
  unfold eqRunMean
  cases st.adaptive_eq_mean with
  | none => rfl
  | some rm =>
    dsimp only
    by_cases h : rm.length = values.length
    · rw [if_pos h, List.length_zipWith, h, min_self]
    · rw [if_neg h]

/-- C3: for every input array of frequency bins and every EQ state, applying
the adaptive normalizer with strength 0 is a pure pass-through: the returned
array equals the input array element-for-element (the blend
`(1-strength)*raw + strength*adjusted` degenerates to `raw` at strength 0). -/
theorem C3_adaptive_eq_strength_zero_passthrough (values : List ℚ) (st : EqState)
    (h : st.adaptive_eq_strength = 0) :
    (apply_adaptive_eq values st).1 = values := by
  unfold apply_adaptive_eq
  by_cases hoff : (!st.adaptive_eq) = true ∨ values.length = 0
  · rw [if_pos hoff]
  · rw [if_neg hoff]
    simp only [h]
    have hlen : (if 0 < npMax (List.zipWith (fun v m => v / (m + 1e-6)) values
        (eqRunMean values st)) then
          (List.zipWith (fun v m => v / (m + 1e-6)) values (eqRunMean values st)).map
            (fun x => x / npMax (List.zipWith (fun v m => v / (m + 1e-6)) values
              (eqRunMean values st)))
        else List.zipWith (fun v m => v / (m + 1e-6)) values
          (eqRunMean values st)).length = values.length := by
      have hz : (List.zipWith (fun v m => v / (m + 1e-6)) values
          (eqRunMean values st)).length = values.length := by
        rw [List.length_zipWith, eqRunMean_length, min_self]
      by_cases hm : 0 < npMax (List.zipWith (fun v m => v / (m + 1e-6)) values
          (eqRunMean values st))
      · rw [if_pos hm, List.length_map, hz]
      · rw [if_neg hm, hz]
    exact zipWith_left_eq _ (fun v a => by ring) _ _ hlen

theorem C3_witness :
    (apply_adaptive_eq [1/2, 3/4] ⟨true, 0, none⟩).1 = [1/2, 3/4] :=
  C3_adaptive_eq_strength_zero_passthrough [1/2, 3/4] ⟨true, 0, none⟩ rfl

/- ===================================================================
   C4 — temporal smoother convergence (corrected: 10 frames, not 9)
   =================================================================== -/

theorem iterateSmoothing_const (n : ℕ) (c p0 a : ℚ) (wf : Option (List ℚ)) (k : ℕ) :
    iterateSmoothing ⟨some (List.replicate n p0), wf, a⟩ (List.replicate n c) k
      = ⟨some (List.replicate n (c - a ^ k * (c - p0))), wf, a⟩ := by
  induction k with
  | zero => simp [iterateSmoothing]
  | succ k ih =>
    rw [iterateSmoothing, ih]
    simp only [apply_smoothing, Bool.false_eq_true, if_false, List.length_replicate,
      if_true, List.zipWith_replicate, min_self]
    ring_nf

/-- C4 counterexample: the claim promises the output within 1% of the target
after `⌈log(0.01)/log(0.6)⌉ ≈ 9` frames, but after exactly 9 applications to
the constant vector `[1,1,1]` from previous state `[0,0,0]` the entries still
differ from 1 by `0.6⁹ = 0.010077696 > 0.01`. -/
theorem C4_counterexample :
    1/100 < |((iterateSmoothing ⟨some (List.replicate 3 0), none, 0.6⟩
      (List.replicate 3 1) 9).previous_values.getD []).getD 0 0 - 1| := by
  rw [iterateSmoothing_const]
  simp only [Option.getD_some, List.replicate, List.getD_cons_zero]
  have h9 : (1 : ℚ) - (0.6 : ℚ) ^ 9 * (1 - 0) - 1 = -((0.6 : ℚ) ^ 9) := by ring
  rw [h9, abs_neg, abs_of_pos (by norm_num)]
  norm_num

/-- C4 (amended): repeated application of the temporal smoother
(`smoothed = 0.6·prev + 0.4·new`) to a constant vector converges
geometrically — the distance to the target shrinks by the exact factor 0.6
each frame — and is within 1% of the target after
`⌈log(0.01)/log(0.6)⌉ = 10` frames (not 9: after 9 frames the error is
`0.6⁹ ≈ 0.010078 > 1%`); 15 iterations on the constant vector `[1,1,1]`
starting from previous state `[0,0,0]` yield values within 0.01 of 1. -/
theorem C4_smoother_convergence :
    (∀ (n k : ℕ) (c p0 : ℚ),
      (iterateSmoothing ⟨some (List.replicate n p0), none, 0.6⟩
          (List.replicate n c) k).previous_values
        = some (List.replicate n (c - (0.6 : ℚ) ^ k * (c - p0)))) ∧
    (∀ (n : ℕ) (c : ℚ), 0 ≤ c →
      ∀ x ∈ ((iterateSmoothing ⟨some (List.replicate n 0), none, 0.6⟩
          (List.replicate n c) 10).previous_values.getD []),
        |x - c| ≤ 1/100 * c) ∧
    (∀ x ∈ ((iterateSmoothing ⟨some (List.replicate 3 0), none, 0.6⟩
        (List.replicate 3 1) 15).previous_values.getD []),
      |x - 1| < 1/100) := by
  refine ⟨fun n k c p0 => by rw [iterateSmoothing_const], ?_, ?_⟩
  · intro n c hc x hx
    rw [iterateSmoothing_const] at hx
    simp only [Option.getD_some, List.mem_replicate] at hx
    rw [hx.2]
    have : c - (0.6 : ℚ) ^ 10 * (c - 0) - c = -((0.6:ℚ) ^ 10 * c) := by ring
    rw [this, abs_neg, abs_of_nonneg (by positivity)]
    have h10 : ((0.6 : ℚ) ^ 10) ≤ 1/100 := by norm_num
    exact mul_le_mul_of_nonneg_right h10 hc
  · intro x hx
    rw [iterateSmoothing_const] at hx
    simp only [Option.getD_some, List.mem_replicate] at hx
    rw [hx.2]
    have h15 : (1 : ℚ) - (0.6 : ℚ) ^ 15 * (1 - 0) - 1 = -((0.6 : ℚ) ^ 15) := by ring
    rw [h15, abs_neg, abs_of_pos (by norm_num)]
    norm_num

theorem C4_witness :
    |(1 - (0.6 : ℚ) ^ 15 * (1 - 0)) - 1| < 1/100 := by
  apply C4_smoother_convergence.2.2
  rw [iterateSmoothing_const]
  simp [List.mem_replicate]

/- ===================================================================
   C5 — shape mismatch reseeds sized state
   =================================================================== -/

/-- C5: whenever the incoming sequence's length differs from the stored sized
state, or no stored state exists, the operation reinitializes that state from
the current frame's values and returns without error: the smoother returns
the new sequence unsmoothed (and stores it as the new previous state), and
the adaptive-EQ running mean is reseeded to the raw values. -/
theorem C5_shape_mismatch_reseeds (values : List ℚ) (sst : SmoothState)
    (est : EqState)
    (hsm : sst.previous_values = none ∨
      ∀ prev, sst.previous_values = some prev → prev.length ≠ values.length)
    (heq : est.adaptive_eq = true) (hv : values ≠ [])
    (hmm : est.adaptive_eq_mean = none ∨
      ∀ rm, est.adaptive_eq_mean = some rm → rm.length ≠ values.length) :
    apply_smoothing sst values false
        = (values, { sst with previous_values := some values }) ∧
    (apply_adaptive_eq values est).2.adaptive_eq_mean = some values := by
  constructor
  · unfold apply_smoothing
    simp only [Bool.false_eq_true, if_false]
    cases hpv : sst.previous_values with
    | none => rfl
    | some prev =>
      dsimp only
      rcases hsm with hsm | hsm
      · rw [hpv] at hsm
        cases hsm
      · rw [if_neg (hsm prev hpv)]
  · have hoff : ¬((!est.adaptive_eq) = true ∨ values.length = 0) := by
      rw [heq]
      simp [List.length_eq_zero, hv]
    unfold apply_adaptive_eq
    rw [if_neg hoff]
    simp only
    congr 1
    unfold eqRunMean
    cases hrm : est.adaptive_eq_mean with
    | none => rfl
    | some rm =>
      dsimp only
      rcases hmm with hmm | hmm
      · rw [hrm] at hmm
        cases hmm
      · rw [if_neg (hmm rm hrm)]

theorem C5_witness :
    apply_smoothing ⟨some [1, 2], none, 0.6⟩ [5, 6, 7] false
        = ([5, 6, 7], ⟨some [5, 6, 7], none, 0.6⟩) ∧
    (apply_adaptive_eq [5, 6, 7] ⟨true, 0.4, some [1, 2]⟩).2.adaptive_eq_mean
        = some [5, 6, 7] :=
  C5_shape_mismatch_reseeds [5, 6, 7] ⟨some [1, 2], none, 0.6⟩
    ⟨true, 0.4, some [1, 2]⟩
    (Or.inr (fun prev hp => by cases hp; decide))
    rfl (by decide)
    (Or.inr (fun rm hp => by cases hp; decide))

/- ===================================================================
   C6 — peak hold and decay
   =================================================================== -/

theorem updatePeaks_getD (bars : List ℚ) :
    ∀ (peaks decays : List ℚ), peaks.length = bars.length →
      decays.length = bars.length → ∀ i, i < bars.length →
      (updatePeaks bars peaks decays).1.getD i 0
          = (peakStep (bars.getD i 0) (peaks.getD i 0) (decays.getD i 0)).1 ∧
      (updatePeaks bars peaks decays).2.getD i 0
          = (peakStep (bars.getD i 0) (peaks.getD i 0) (decays.getD i 0)).2 := by
  induction bars with
  | nil => intro peaks decays _ _ i hi; simp at hi
  | cons b bs ih =>
    intro peaks decays hp hd i hi
    cases peaks with
    | nil => simp at hp
    | cons p ps =>
      cases decays with
      | nil => simp at hd
      | cons d ds =>
        cases i with
        | zero => simp [updatePeaks]
        | succ j =>
          have h := ih ps ds (by simpa using hp) (by simpa using hd) j
            (by simpa using hi)
          simpa [updatePeaks] using h

/-- C6: for every bin of the peak tracker at each frame: if the new value
exceeds the held peak, the peak is set to the new value and the decay-rate
accumulator resets to 0; otherwise the accumulator increases by the fixed
increment 0.008 and the peak decreases by the (grown) accumulator value,
floored at 0 — so a peak never goes negative and decreases monotonically
while not re-triggered. -/
theorem C6_peak_hold_decay (bars peaks decays : List ℚ)
    (hp : peaks.length = bars.length) (hd : decays.length = bars.length)
    (hpn : ∀ p ∈ peaks, 0 ≤ p) (hdn : ∀ d ∈ decays, 0 ≤ d)
    (i : ℕ) (hi : i < bars.length) :
    (peaks.getD i 0 < bars.getD i 0 →
      (updatePeaks bars peaks decays).1.getD i 0 = bars.getD i 0 ∧
      (updatePeaks bars peaks decays).2.getD i 0 = 0) ∧
    (¬ peaks.getD i 0 < bars.getD i 0 →
      (updatePeaks bars peaks decays).2.getD i 0 = decays.getD i 0 + 0.008 ∧
      (updatePeaks bars peaks decays).1.getD i 0
          = max 0 (peaks.getD i 0 - (decays.getD i 0 + 0.008)) ∧
      (updatePeaks bars peaks decays).1.getD i 0 ≤ peaks.getD i 0) ∧
    0 ≤ (updatePeaks bars peaks decays).1.getD i 0 := by
  obtain ⟨h1, h2⟩ := updatePeaks_getD bars peaks decays hp hd i hi
  have hp0 : 0 ≤ peaks.getD i 0 := getD_nonneg hpn i
  have hd0 : 0 ≤ decays.getD i 0 := getD_nonneg hdn i
  rw [h1, h2]
  unfold peakStep
  refine ⟨fun hlt => by rw [if_pos hlt]; exact ⟨rfl, rfl⟩, fun hge => ?_, ?_⟩
  · rw [if_neg hge]
    refine ⟨rfl, rfl, ?_⟩
    exact max_le hp0 (sub_le_self _ (by linarith))
  · by_cases hlt : peaks.getD i 0 < bars.getD i 0
    · rw [if_pos hlt]
      exact le_of_lt (lt_of_le_of_lt hp0 hlt)
    · rw [if_neg hlt]
      exact le_max_left _ _

theorem C6_witness :
    ((0 : ℚ) < 1 →
      (updatePeaks [1] [0] [0]).1.getD 0 0 = 1 ∧
      (updatePeaks [1] [0] [0]).2.getD 0 0 = 0) ∧
    (¬ (0 : ℚ) < 1 →
      (updatePeaks [1] [0] [0]).2.getD 0 0 = (0 : ℚ) + 0.008 ∧
      (updatePeaks [1] [0] [0]).1.getD 0 0 = max 0 ((0 : ℚ) - (0 + 0.008)) ∧
      (updatePeaks [1] [0] [0]).1.getD 0 0 ≤ 0) ∧
    0 ≤ (updatePeaks [1] [0] [0]).1.getD 0 0 := by
  have h := C6_peak_hold_decay [1] [0] [0] rfl rfl
    (by intro p hp; simp at hp; simp [hp]) (by intro d hd; simp at hd; simp [hd])
    0 (by norm_num)
  simpa using h

/- ===================================================================
   C7 — particle list invariants
   =================================================================== -/

/-- C7: after every frame of the particle simulation, the live particle list
never exceeds the cap of 450 (truncated oldest-first), every retained
particle's age is strictly below its max-age, every retained particle's
position lies within the grid extended by the margin of 2 cells, and the
resulting list is a sublist of this frame's updated population — a particle
removed by these rules is never re-added. -/
theorem C7_particle_invariants (existing spawned : List Particle) (w h : ℚ) :
    (stepParticles existing spawned w h).length ≤ 450 ∧
    (∀ p ∈ stepParticles existing spawned w h,
      p.age < p.maxLife ∧ -2 ≤ p.x ∧ p.x < w + 2 ∧ -2 ≤ p.y ∧ p.y < h + 2) ∧
    (stepParticles existing spawned w h).Sublist
      ((existing ++ spawned).map updateParticle) := by
  refine ⟨?_, ?_, ?_⟩
  · unfold stepParticles
    rw [List.length_drop]
    omega
  · intro p hp
    have hk : p ∈ ((existing ++ spawned).map updateParticle).filter
        (keepParticle w h) := List.mem_of_mem_drop hp
    have := List.of_mem_filter hk
    simpa [keepParticle, and_assoc] using this
  · exact (List.drop_sublist _ _).trans (List.filter_sublist _)

/- ===================================================================
   C8 — quiet gating of particle spawning
   =================================================================== -/

/-- C8: under sustained zero input energy — so the slow ("macro") envelope is
below the quiet threshold 0.02 and the normalised transient is below 0.15 —
the particle simulation spawns at most one particle every ~22 frames: the
spawn count is 0 except on frames whose counter is divisible by 22, when it
is exactly 1. -/
theorem C8_quiet_gating (slowEnv fastEnv : ℝ) (frame_counter : ℕ)
    (hq : slowEnvNext slowEnv 0 < 0.02)
    (ht : transientNormVal slowEnv fastEnv 0 < 0.15) :
    spawnCount slowEnv fastEnv 0 frame_counter
      = if frame_counter % 22 = 0 then 1 else 0 := by
  unfold spawnCount
  dsimp only
  have hquiet : slowEnvNext slowEnv 0 < 0.02 ∧
      transientNormVal slowEnv fastEnv 0 < 0.15 := ⟨hq, ht⟩
  rw [if_pos hquiet, if_pos hquiet]
  have hnt : ¬ (0.9 : ℝ) < transientNormVal slowEnv fastEnv 0 := by
    intro hcon
    linarith
  rw [if_neg hnt]
  by_cases hc : frame_counter % 22 = 0
  · rw [if_pos hc]
    rw [if_pos (⟨by norm_num, hc⟩ : (0 + 0) ⊓ 55 = 0 ∧ frame_counter % 22 = 0)]
  · rw [if_neg hc, if_neg (fun hcon => hc hcon.2)]
    norm_num

theorem C8_witness : spawnCount 0 0 0 0 = 1 := by
  have h := C8_quiet_gating 0 0 0
    (by norm_num [slowEnvNext])
    (by norm_num [transientNormVal, slowEnvNext, fastEnvNext])
  simpa using h

/- ===================================================================
   C9 — bounded audio queue with drop-oldest policy
   =================================================================== -/

/-- C9: the audio chunk queue is bounded at capacity 5 with a drop-oldest
overflow policy: enqueuing into a full queue removes the oldest chunk and
then appends the new one instead of blocking, so the queue length never
exceeds the capacity; the non-blocking dequeue yields the oldest chunk, and
`none` when the queue is empty. -/
theorem C9_bounded_queue (q : List AudioChunk) (x : AudioChunk)
    (hlen : q.length ≤ queueCapacity) :
    (enqueueDropOldest q x).length ≤ queueCapacity ∧
    (q.length = queueCapacity → enqueueDropOldest q x = q.tail ++ [x]) ∧
    get_audio_data q = (q.head?, q.tail) := by
  refine ⟨?_, ?_, ?_⟩
  · unfold enqueueDropOldest
    by_cases hlt : q.length < queueCapacity
    · rw [if_pos hlt]
      simpa using hlt
    · rw [if_neg hlt]
      cases q with
      | nil => simp [queueCapacity]
      | cons c t =>
        simpa using hlen
  · intro hfull
    unfold enqueueDropOldest
    rw [if_neg (by omega)]
    cases q with
    | nil => simp [queueCapacity] at hfull
    | cons c t => rfl
  · cases q <;> rfl

theorem C9_witness :
    (enqueueDropOldest [[1], [2], [3], [4], [5]] [6]).length ≤ queueCapacity ∧
    (([[1], [2], [3], [4], [5]] : List AudioChunk).length = queueCapacity →
      enqueueDropOldest [[1], [2], [3], [4], [5]] [6]
        = ([[1], [2], [3], [4], [5]] : List AudioChunk).tail ++ [[6]]) ∧
    get_audio_data [[1], [2], [3], [4], [5]]
      = (([[1], [2], [3], [4], [5]] : List AudioChunk).head?,
         ([[1], [2], [3], [4], [5]] : List AudioChunk).tail) :=
  C9_bounded_queue [[1], [2], [3], [4], [5]] [6] (by simp [queueCapacity])

/- ===================================================================
   C10 — fully silent chunks are never enqueued
   =================================================================== -/

/-- C10: for every captured chunk whose maximum absolute (mono) sample value
is at most 1e-6, the sounddevice capture callback leaves the audio queue
unchanged — the chunk is never enqueued — and the consumer's non-blocking
dequeue of an empty queue returns `none`, so an idle frame is rendered rather
than a zero-valued chunk being processed. -/
theorem C10_silent_chunk_dropped (indata : List (List ℚ)) (q : List AudioChunk)
    (hsilent : maxAbs (indata.map meanRow) ≤ 1e-6) :
    audio_callback indata q = q ∧ (get_audio_data []).1 = none := by
  constructor
  · unfold audio_callback
    exact if_neg (not_lt.mpr hsilent)
  · rfl

theorem C10_witness :
    audio_callback [[0, 0], [0, 0]] [[1]] = [[1]] ∧
    (get_audio_data []).1 = none := by
  apply C10_silent_chunk_dropped
  simp [maxAbs, meanRow, npMax]
  norm_num

/- ===================================================================
   C1 — silent input yields all-zero bars; invalid bar count yields []
   =================================================================== -/

theorem rfftPower_zero (x : ℕ → ℝ) (n k : ℕ) (h : ∀ j, x j = 0) :
    rfftPower x n k = 0 := by
  unfold rfftPower
  have hz : ∀ j ∈ Finset.range n,
      ((x j : ℂ) * Complex.exp (-(2 * Real.pi * Complex.I * j * k) / n)) = 0 := by
    intro j _
    rw [h j, Complex.ofReal_zero, zero_mul]
  rw [Finset.sum_congr rfl hz, Finset.sum_const_zero, map_zero]

theorem bandValue_zero (power freqs : ℕ → ℝ) (K : ℕ) (lo hi c : ℝ)
    (h : ∀ k, power k = 0) : bandValue power freqs K lo hi c = 0 := by
  unfold bandValue
  dsimp only
  split
  · rw [Finset.sum_congr rfl (fun k _ => h k), Finset.sum_const_zero, zero_div,
      Real.sqrt_zero]
  · split
    · rw [h 0, Real.sqrt_zero]
    · split
      · rw [h (K - 1), Real.sqrt_zero]
      · rw [h _, h _, mul_zero, mul_zero, add_zero, Real.sqrt_zero]

theorem bandValue_nonneg (power freqs : ℕ → ℝ) (K : ℕ) (lo hi c : ℝ) :
    0 ≤ bandValue power freqs K lo hi c := by
  unfold bandValue
  dsimp only
  split
  · exact Real.sqrt_nonneg _
  · split
    · exact Real.sqrt_nonneg _
    · split
      · exact Real.sqrt_nonneg _
      · exact Real.sqrt_nonneg _

theorem barValsRaw_length (audio : List ℝ) (N W : ℕ) (sr : ℤ) :
    (barValsRaw audio N W sr).length = N := by
  unfold barValsRaw
  simp

theorem barValsRaw_nonneg (audio : List ℝ) (N W : ℕ) (sr : ℤ) :
    ∀ v ∈ barValsRaw audio N W sr, 0 ≤ v := by
  intro v hv
  unfold barValsRaw at hv
  dsimp only at hv
  rw [List.mem_map] at hv
  obtain ⟨i, _, rfl⟩ := hv
  exact bandValue_nonneg _ _ _ _ _ _

theorem barValsRaw_zero (audio : List ℝ) (N W : ℕ) (sr : ℤ)
    (h : ∀ x ∈ audio, x = 0) :
    barValsRaw audio N W sr = List.replicate N 0 := by
  unfold barValsRaw
  dsimp only
  rw [List.eq_replicate_iff]
  refine ⟨by simp, ?_⟩
  intro b hb
  rw [List.mem_map] at hb
  obtain ⟨i, hi, rfl⟩ := hb
  apply bandValue_zero
  intro k
  apply rfftPower_zero
  intro j
  have hp : (audio.take W ++ List.replicate (W - audio.length) (0 : ℝ)).getD j 0
      = 0 := by
    apply getD_eq_zero
    intro v hv
    rcases List.mem_append.mp hv with hv | hv
    · exact h v (List.take_subset _ _ hv)
    · exact List.eq_of_mem_replicate hv
  rw [hp, zero_mul]

theorem preNormVals_replicate_zero (flatten : Bool) (N : ℕ) :
    preNormVals flatten (List.replicate N (0 : ℝ)) = List.replicate N 0 := by
  unfold preNormVals
  rw [if_neg]
  rintro ⟨v, hv, hpos⟩
  rw [List.eq_of_mem_replicate hv] at hpos
  exact lt_irrefl 0 hpos

theorem npMax_replicate_zero (N : ℕ) : npMax (List.replicate N (0 : ℝ)) = 0 := by
  cases N with
  | zero => rfl
  | succ n =>
    apply le_antisymm
    · exact npMax_le (by simp) (fun v hv => le_of_eq (List.eq_of_mem_replicate hv))
    · exact le_npMax (by simp : (0 : ℝ) ∈ List.replicate (n + 1) (0 : ℝ))

theorem postProcess_replicate_zero (flatten : Bool) (N : ℕ) :
    postProcess flatten (List.replicate N (0 : ℝ)) = List.replicate N 0 := by
  unfold postProcess
  dsimp only
  rw [preNormVals_replicate_zero, npMax_replicate_zero, if_neg (lt_irrefl 0),
    List.map_replicate]
  congr 1
  unfold gammaLift
  rw [if_neg (lt_irrefl 0)]

/-- C1: for every target bar count N > 0 and an all-silent (all-zero) audio
chunk, `compute_frequency_bars` returns a sequence of exactly N values that
are all zero; and for every N ≤ 0 it returns an empty sequence, regardless of
the audio input. -/
theorem C1_silent_input_zero_bars (audio : List ℝ)
    (num_bars fft_size sample_rate : ℤ) (flatten : Bool) :
    ((∀ x ∈ audio, x = 0) → 0 < num_bars →
      compute_frequency_bars audio num_bars fft_size sample_rate flatten
        = List.replicate num_bars.toNat 0) ∧
    (num_bars ≤ 0 →
      compute_frequency_bars audio num_bars fft_size sample_rate flatten = []) := by
  constructor
  · intro hz hN
    unfold compute_frequency_bars
    rw [if_neg (not_le.mpr hN), barValsRaw_zero _ _ _ _ hz,
      postProcess_replicate_zero]
  · intro hN
    unfold compute_frequency_bars
    rw [if_pos hN]

theorem C1_witness :
    compute_frequency_bars [0, 0] 3 4096 44100 false = List.replicate 3 0 ∧
    compute_frequency_bars [0.5] (-1) 4096 44100 false = [] :=
  ⟨(C1_silent_input_zero_bars [0, 0] 3 4096 44100 false).1
      (by intro x hx; simpa using hx) (by norm_num),
   (C1_silent_input_zero_bars [0.5] (-1) 4096 44100 false).2 (by norm_num)⟩

/- ===================================================================
   C2 — bars lie in [0,1]; max is exactly 1 when energy is present
   =================================================================== -/

theorem linspace01_nonneg (n i : ℕ) (hn : 1 ≤ n) : 0 ≤ linspace01 n i := by
  unfold linspace01
  split
  · exact le_refl 0
  · apply div_nonneg (Nat.cast_nonneg i)
    have h1 : (1 : ℝ) ≤ (n : ℝ) := by exact_mod_cast hn
    linarith

theorem tiltGain_nonneg (n i : ℕ) (hn : 1 ≤ n) : 0 ≤ tiltGain n i := by
  unfold tiltGain
  have h := Real.rpow_nonneg (linspace01_nonneg n i hn) (1.15 : ℝ)
  linarith

theorem floorClipped_nonneg (bv : List ℝ) : ∀ v ∈ floorClipped bv, 0 ≤ v := by
  intro v hv
  unfold floorClipped at hv
  rw [List.mem_map] at hv
  obtain ⟨a, _, rfl⟩ := hv
  exact le_max_left _ _

theorem floorClipped_length (bv : List ℝ) :
    (floorClipped bv).length = bv.length := by
  unfold floorClipped
  rw [List.length_map]

theorem tilted_length (flatten : Bool) (bv : List ℝ) :
    (tilted flatten bv).length = bv.length := by
  unfold tilted
  split
  · exact floorClipped_length bv
  · rw [List.length_map, List.length_range, floorClipped_length]

theorem tilted_nonneg (flatten : Bool) (bv : List ℝ) (hne : bv ≠ []) :
    ∀ v ∈ tilted flatten bv, 0 ≤ v := by
  have hlen : 1 ≤ (floorClipped bv).length := by
    rw [floorClipped_length]
    exact List.length_pos.mpr hne
  unfold tilted
  split
  · exact floorClipped_nonneg bv
  · intro v hv
    rw [List.mem_map] at hv
    obtain ⟨i, _, rfl⟩ := hv
    exact mul_nonneg (getD_nonneg (floorClipped_nonneg bv) i)
      (tiltGain_nonneg _ i hlen)

theorem preNormVals_length (flatten : Bool) (bv : List ℝ) :
    (preNormVals flatten bv).length = bv.length := by
  unfold preNormVals
  dsimp only
  split
  · split
    · rw [List.length_map, tilted_length]
    · exact tilted_length flatten bv
  · rfl

theorem preNormVals_nonneg (flatten : Bool) (bv : List ℝ)
    (hnn : ∀ v ∈ bv, 0 ≤ v) : ∀ v ∈ preNormVals flatten bv, 0 ≤ v := by
  unfold preNormVals
  dsimp only
  split
  case isTrue hex =>
    have hbne : bv ≠ [] := by
      rcases hex with ⟨v, hv, _⟩
      exact List.ne_nil_of_mem hv
    have ht := tilted_nonneg flatten bv hbne
    split
    case isTrue hb =>
      intro v hv
      rw [List.mem_map] at hv
      obtain ⟨a, ha, rfl⟩ := hv
      exact add_nonneg (ht a ha) (le_of_lt hb)
    case isFalse => exact ht
  case isFalse => exact hnn

theorem gammaLift_unit {x : ℝ} (h0 : 0 ≤ x) (h1 : x ≤ 1) :
    0 ≤ gammaLift x ∧ gammaLift x ≤ 1 := by
  unfold gammaLift
  split
  · exact ⟨Real.rpow_nonneg h0 _, Real.rpow_le_one h0 h1 (by norm_num)⟩
  · exact ⟨h0, h1⟩

theorem gammaLift_one : gammaLift 1 = 1 := by
  unfold gammaLift
  rw [if_pos one_pos, Real.one_rpow]

theorem postProcess_length (flatten : Bool) (bv : List ℝ) :
    (postProcess flatten bv).length = bv.length := by
  unfold postProcess
  dsimp only
  rw [List.length_map]
  split
  · rw [List.length_map, preNormVals_length]
  · exact preNormVals_length flatten bv

theorem postProcess_unit (flatten : Bool) (bv : List ℝ)
    (hnn : ∀ v ∈ bv, 0 ≤ v) :
    (∀ v ∈ postProcess flatten bv, 0 ≤ v ∧ v ≤ 1) ∧
    ((∃ v ∈ preNormVals flatten bv, 0 < v) →
      npMax (postProcess flatten bv) = 1) := by
  have hp := preNormVals_nonneg flatten bv hnn
  unfold postProcess
  dsimp only
  constructor
  · intro v hv
    rw [List.mem_map] at hv
    obtain ⟨a, ha, rfl⟩ := hv
    by_cases hm : 0 < npMax (preNormVals flatten bv)
    · rw [if_pos hm, List.mem_map] at ha
      obtain ⟨b, hb, rfl⟩ := ha
      exact gammaLift_unit (div_nonneg (hp b hb) (le_of_lt hm))
        ((div_le_one hm).mpr (le_npMax hb))
    · rw [if_neg hm] at ha
      exact gammaLift_unit (hp a ha)
        (le_trans (le_trans (le_npMax ha) (not_lt.mp hm)) zero_le_one)
  · rintro ⟨v, hv, hvpos⟩
    have hm : 0 < npMax (preNormVals flatten bv) :=
      lt_of_lt_of_le hvpos (le_npMax hv)
    rw [if_pos hm]
    have hne : preNormVals flatten bv ≠ [] := List.ne_nil_of_mem hv
    have hmem1 : (1 : ℝ) ∈ ((preNormVals flatten bv).map
        fun u => u / npMax (preNormVals flatten bv)).map gammaLift := by
      rw [List.mem_map]
      refine ⟨npMax (preNormVals flatten bv) / npMax (preNormVals flatten bv),
        ?_, ?_⟩
      · rw [List.mem_map]
        exact ⟨npMax (preNormVals flatten bv), npMax_mem hne, rfl⟩
      · rw [div_self (ne_of_gt hm)]
        exact gammaLift_one
    apply le_antisymm
    · apply npMax_le (List.ne_nil_of_mem hmem1)
      intro u hu
      rw [List.mem_map] at hu
      obtain ⟨a, ha, rfl⟩ := hu
      rw [List.mem_map] at ha
      obtain ⟨b, hb, rfl⟩ := ha
      exact (gammaLift_unit (div_nonneg (hp b hb) (le_of_lt hm))
        ((div_le_one hm).mpr (le_npMax hb))).2
    · exact le_npMax hmem1

/-- C2: for every bar count N > 0 and every audio chunk, the output of
`compute_frequency_bars` has length exactly N and every element lies in
[0,1]; moreover, if any band has nonzero energy just before the
normalization step, the maximum output element equals exactly 1.0
(normalization by the maximum followed by the 0.7 gamma, which fixes 1). -/
theorem C2_bars_normalized (audio : List ℝ)
    (num_bars fft_size sample_rate : ℤ) (flatten : Bool) (hN : 0 < num_bars) :
    (((compute_frequency_bars audio num_bars fft_size sample_rate
        flatten).length : ℤ) = num_bars) ∧
    (∀ v ∈ compute_frequency_bars audio num_bars fft_size sample_rate flatten,
      0 ≤ v ∧ v ≤ 1) ∧
    ((∃ v ∈ preNormVals flatten (barValsRaw audio num_bars.toNat
          (if fft_size ≤ 0 then 4096 else fft_size).toNat sample_rate), 0 < v) →
      npMax (compute_frequency_bars audio num_bars fft_size sample_rate
        flatten) = 1) := by
  have hnn := barValsRaw_nonneg audio num_bars.toNat
    ((if fft_size ≤ 0 then 4096 else fft_size).toNat) sample_rate
  unfold compute_frequency_bars
  rw [if_neg (not_le.mpr hN)]
  refine ⟨?_, (postProcess_unit _ _ hnn).1, (postProcess_unit _ _ hnn).2⟩
  rw [postProcess_length, barValsRaw_length, Int.toNat_of_nonneg (le_of_lt hN)]

theorem C2_witness :
    ((compute_frequency_bars [0.25, -0.5] 4 4096 44100 false).length : ℤ) = 4 :=
  (C2_bars_normalized [0.25, -0.5] 4 4096 44100 false (by norm_num)).1
